import Mathlib

/-!
Verification of the line-delimited JSON file-format plugin
(`datafusion/core/src/datasource/file_format/json.rs`).

Pure fragments of the source are embedded directly; components that the
source file only calls into (the arrow schema-merge primitive, the
`DecoderDeserializer` state machine, `Statistics::new_unknown`) are
modelled from the specification, as indicated on each definition.
-/

set_option maxHeartbeats 1000000
set_option synthInstance.maxSize 5000

deriving instance DecidableEq for Except

namespace JsonFormatSpec

/-- Logical data types that line-delimited JSON schema inference can
produce (`DataType` in the source's schema layer, restricted to the
types reachable from JSON values). -/
inductive DataType where
  | null
  | boolean
  | int64
  | float64
  | utf8
deriving DecidableEq, Repr, Fintype

/-- A schema field: name, logical type and nullability (spec data model:
"Schema: ordered sequence of (name, logical type, nullability) triples"). -/
structure Field where
  name : String
  dataType : DataType
  nullable : Bool
deriving DecidableEq, Repr

/-- A schema is an ordered sequence of fields. -/
structure Schema where
  fields : List Field
deriving DecidableEq, Repr

/-- Schema-merge failure ("SchemaConflict" in the spec's error taxonomy). -/
inductive MergeError where
  | conflict
deriving DecidableEq, Repr

/-- Type-and-nullability payload of a field. -/
abbrev TB := DataType × Bool

/-- Modelled from the spec: the type/nullability unification rule used when
one field name occurs in several schemas ("a name appearing in multiple
schemas must resolve to a single compatible type or the operation fails";
"the merged schema must have a single definition per name with a type that
is the least-upper-bound (or error) of all source types").  `null` unifies
with anything and forces nullability; equal types unify; anything else is
a conflict (`none`). -/
def combineTB (a b : TB) : Option TB :=
  if a.1 = DataType.null then some (b.1, true)
  else if b.1 = DataType.null then some (a.1, true)
  else if a.1 = b.1 then some (a.1, a.2 || b.2)
  else none

/-- Modelled from the spec: merging one field into an existing field of the
same name, combining type and nullability via `combineTB`. -/
def Field.try_merge (g f : Field) : Except MergeError Field :=
  match combineTB (g.dataType, g.nullable) (f.dataType, f.nullable) with
  | some tb => .ok ⟨g.name, tb.1, tb.2⟩
  | none => .error .conflict

/-- Modelled from the spec: insert one field into an accumulated field list,
merging with the first field of the same name if present and appending
otherwise ("fields are unioned by name"). -/
def mergeFieldInto : List Field → Field → Except MergeError (List Field)
  | [], f => .ok [f]
  | g :: gs, f =>
    if g.name == f.name then
      match Field.try_merge g f with
      | .ok m => .ok (m :: gs)
      | .error e => .error e
    else
      match mergeFieldInto gs f with
      | .ok r => .ok (g :: r)
      | .error e => .error e

/-- Fold a list of fields into an accumulator with `mergeFieldInto`,
stopping at the first conflict. -/
def mergeFields : List Field → List Field → Except MergeError (List Field)
  | acc, [] => .ok acc
  | acc, f :: fs =>
    match mergeFieldInto acc f with
    | .ok acc' => mergeFields acc' fs
    | .error e => .error e

/-- All fields of a list of schemas, in order. -/
def flatFields (l : List Schema) : List Field :=
  l.flatMap (fun s => s.fields)

/-- Modelled from the spec: `Schema::try_merge` — "All per-object schemas
are merged: fields are unioned by name; a name appearing in multiple
schemas must resolve to a single compatible type or the operation fails
with a SchemaConflict error."  Fields are kept in order of first
appearance. -/
def Schema.try_merge (schemas : List Schema) : Except MergeError Schema :=
  match mergeFields [] (flatFields schemas) with
  | .ok fs => .ok ⟨fs⟩
  | .error e => .error e

/-- Lookup of a field by name in a field list. -/
def findName (fs : List Field) (n : String) : Option Field :=
  fs.find? (fun f => f.name == n)

/-- The by-name lookup induced by a merged schema (or the merge error). -/
def mergedLookup (l : List Schema) (n : String) : Except MergeError (Option Field) :=
  (Schema.try_merge l).map (fun s => findName s.fields n)

/-! ## Schema inference (`JsonFormat::infer_schema`, json.rs lines 190-236) -/

/-- A JSON scalar value, as far as schema inference observes it. -/
inductive JsonValue where
  | null
  | boolean (b : Bool)
  | int (i : Int)
  | float
  | str (s : String)
deriving DecidableEq, Repr

/-- One line-delimited JSON record: a list of (key, value) pairs. -/
abbrev Record := List (String × JsonValue)

/-- The data type inferred for a JSON value. -/
def valueType : JsonValue → DataType
  | .null => .null
  | .boolean _ => .boolean
  | .int _ => .int64
  | .float => .float64
  | .str _ => .utf8

/-- Modelled from the spec: the type-widening rule of the external
per-object inference primitive (`infer_json_schema_from_iterator`): equal
types stay, `null` is absorbed, int widens with float to float (spec test
scenario: fields `1` and `2.0` infer as float), anything else falls back
to `utf8`. -/
def coerceType (a b : DataType) : DataType :=
  if a = b then a
  else if a = DataType.null then b
  else if b = DataType.null then a
  else if (a = DataType.int64 ∧ b = DataType.float64)
       ∨ (a = DataType.float64 ∧ b = DataType.int64) then DataType.float64
  else DataType.utf8

/-- Add one observed (name, type) pair to the fields accumulated for one
object, coercing with an existing field of the same name.  Inferred fields
are always nullable. -/
def addField : List Field → String → DataType → List Field
  | [], n, t => [⟨n, t, true⟩]
  | g :: gs, n, t =>
    if g.name == n then ⟨g.name, coerceType g.dataType t, true⟩ :: gs
    else g :: addField gs n t

/-- Modelled from the spec: per-object schema inference over the sampled
records ("each object's sampled records are inferred into a per-object
schema"); field names are unioned in order of first appearance. -/
def inferObjectSchema (records : List Record) : Schema :=
  ⟨records.foldl
    (fun fs r => r.foldl (fun fs kv => addField fs kv.1 (valueType kv.2)) fs)
    []⟩

/-- Storage-level failure identifier carried by an object read error. -/
abbrev IOErrorId := Nat

/-- The result of `store.get` + decode for one object: either its records
or a storage error.  This stands for one `ObjectMeta` together with the
object store's behaviour on it. -/
abbrev FetchResult := Except IOErrorId (List Record)

/-- Errors surfaced by the format (the spec's ObjectReadError /
SchemaConflict / UnsupportedOperation taxonomy). -/
inductive DataFusionError where
  | objectStore (e : IOErrorId)
  | schemaConflict
  | notImplemented
deriving DecidableEq, Repr

/-- Modelled from the spec: `DEFAULT_SCHEMA_INFER_MAX_RECORD`, the default
record cap used when `schema_infer_max_rec` is unset ("schema-inference
record cap (default constant if unset)"). -/
def DEFAULT_SCHEMA_INFER_MAX_RECORD : Nat := 1000

/-- Compression kinds of the configuration surface. -/
inductive CompressionTypeVariant where
  | uncompressed
  | gzip
  | bzip2
  | xz
  | zstd
deriving DecidableEq, Repr

/-- The `JsonOptions` snapshot carried by `JsonFormat`. -/
structure JsonOptionsModel where
  schema_infer_max_rec : Option Nat
  compression : CompressionTypeVariant
deriving DecidableEq, Repr

/-- The record budget resolved from the options (json.rs lines 197-200). -/
def JsonOptionsModel.budget (opts : JsonOptionsModel) : Nat :=
  opts.schema_infer_max_rec.getD DEFAULT_SCHEMA_INFER_MAX_RECORD

/-- The sampling loop of `JsonFormat::infer_schema` (json.rs lines
202-232): one shared record budget is decremented across objects by the
`take_while` closure; each object contributes the schema of (and, in this
embedding, the list of) its sampled records; after an object, if the
budget has reached zero the loop breaks.  A storage error on any object
propagates immediately (the `?` on `store.get`). -/
def inferLoop : Nat → List FetchResult →
    Except DataFusionError (List (Schema × List Record) × Nat)
  | budget, [] => .ok ([], budget)
  | budget, o :: os =>
    match o with
    | .error e => .error (.objectStore e)
    | .ok records =>
      let sampled := records.take budget
      let remaining := budget - sampled.length
      let schema := inferObjectSchema sampled
      if remaining = 0 then .ok ([(schema, sampled)], remaining)
      else
        match inferLoop remaining os with
        | .ok (rest, b) => .ok ((schema, sampled) :: rest, b)
        | .error e => .error e

/-- `JsonFormat::infer_schema` (json.rs lines 190-236): run the sampling
loop, then merge the per-object schemas with `Schema::try_merge`. -/
def JsonFormat.infer_schema (opts : JsonOptionsModel) (objects : List FetchResult) :
    Except DataFusionError Schema :=
  match inferLoop opts.budget objects with
  | .error e => .error e
  | .ok (trace, _) =>
    match Schema.try_merge (trace.map Prod.fst) with
    | .ok s => .ok s
    | .error _ => .error .schemaConflict

/-- The by-name lookup induced by an inferred table schema. -/
def inferredLookup (opts : JsonOptionsModel) (objects : List FetchResult)
    (n : String) : Except DataFusionError (Option Field) :=
  (JsonFormat.infer_schema opts objects).map (fun s => findName s.fields n)

/-! ## Serialization (`JsonSerializer::serialize`, json.rs lines 298-305) -/

/-- A byte. -/
abbrev Byte := Nat

/-- The newline delimiter of the line-delimited wire format. -/
def newline : Byte := 10

/-- `JsonSerializer::serialize` (json.rs lines 298-305): every row of the
batch becomes one encoded line; the `_initial` flag is accepted but
ignored.  The per-row JSON encoding itself is the external
`LineDelimitedWriter` primitive, abstracted as `enc`. -/
def JsonSerializer.serialize {α : Type} (enc : α → List Byte)
    (batch : List α) (_initial : Bool) : List Byte :=
  (batch.map (fun row => enc row ++ [newline])).flatten

/-! ## Statistics (`JsonFormat::infer_stats`, json.rs lines 238-246) -/

/-- Precision of a reported statistic. -/
inductive Precision where
  | exact (n : Nat)
  | inexact (n : Nat)
  | absent
deriving DecidableEq, Repr

/-- Per-column statistics. -/
structure ColumnStatistics where
  null_count : Precision
  max_value : Precision
  min_value : Precision
  distinct_count : Precision
deriving DecidableEq, Repr

/-- A fully-unknown column statistic. -/
def ColumnStatistics.unknown : ColumnStatistics :=
  ⟨.absent, .absent, .absent, .absent⟩

/-- Table statistics. -/
structure Statistics where
  num_rows : Precision
  total_byte_size : Precision
  column_statistics : List ColumnStatistics
deriving DecidableEq, Repr

/-- Modelled from the spec: `Statistics::new_unknown` (declared outside
this source file); per the repository tests, it reports `Precision::Absent`
for `num_rows` and `total_byte_size` and unknown per-column statistics. -/
def Statistics.new_unknown (schema : Schema) : Statistics :=
  ⟨.absent, .absent, schema.fields.map (fun _ => ColumnStatistics.unknown)⟩

/-- `JsonFormat::infer_stats` (json.rs lines 238-246): always returns
`Statistics::new_unknown` for the table schema, ignoring state, store and
object. -/
def JsonFormat.infer_stats {Store : Type} (_store : Store) (table_schema : Schema)
    (_object : String) : Except DataFusionError Statistics :=
  .ok (Statistics.new_unknown table_schema)

/-! ## Write path (`JsonFormat::create_writer_physical_plan`, json.rs lines 259-275) -/

/-- Insert operations of the DML layer. -/
inductive InsertOp where
  | append
  | overwrite
  | replace
deriving DecidableEq, Repr

/-- The sink configuration, reduced to the field the source inspects. -/
structure FileSinkConfig where
  insert_op : InsertOp
deriving DecidableEq, Repr

/-- Writer options derived from the JSON options. -/
structure JsonWriterOptions where
  compression : CompressionTypeVariant
deriving DecidableEq, Repr

/-- `JsonWriterOptions::try_from(&JsonOptions)`: carries the configured
compression over to the writer. -/
def JsonWriterOptions.tryFrom (opts : JsonOptionsModel) :
    Except DataFusionError JsonWriterOptions :=
  .ok ⟨opts.compression⟩

/-- `JsonSink`: sink configuration plus writer options (json.rs lines
307-346). -/
structure JsonSink where
  config : FileSinkConfig
  writer_options : JsonWriterOptions
deriving DecidableEq, Repr

/-- The shape of the physical plan built on the write path. -/
inductive ExecutionPlanModel where
  | source
  | dataSinkExec (input : ExecutionPlanModel) (sink : JsonSink)
deriving DecidableEq, Repr

/-- `JsonFormat::create_writer_physical_plan` (json.rs lines 259-275):
reject any non-`Append` insert operation with a not-implemented error
before building writer options, sink or plan; otherwise wrap the input in
a `DataSinkExec` over a `JsonSink`. -/
def JsonFormat.create_writer_physical_plan (opts : JsonOptionsModel)
    (input : ExecutionPlanModel) (conf : FileSinkConfig) :
    Except DataFusionError ExecutionPlanModel :=
  if conf.insert_op ≠ InsertOp.append then .error .notImplemented
  else
    match JsonWriterOptions.tryFrom opts with
    | .ok wopts => .ok (.dataSinkExec input (JsonSink.mk conf wopts))
    | .error e => .error e

/-! ## Incremental decoding (`JsonDecoder`, json.rs lines 393-422, and the
`DecoderDeserializer` digest/finish/next state machine it is wrapped in) -/

/-- `JsonDecoder::can_flush_early` (json.rs lines 413-415): the JSON
decoder never declares the early-flush capability. -/
def JsonDecoder.can_flush_early : Bool := false

/-- Modelled from the spec: the state of the wrapped record decoder
("ChunkDecoder") for the line-delimited wire format — the bytes of the
record currently being assembled plus the complete records accumulated
since the last flush. -/
structure JsonDecoderState where
  current : List Byte
  pending : List (List Byte)
deriving DecidableEq, Repr

/-- Feed one byte to the record decoder: a newline completes the current
record, any other byte extends it. -/
def decodeByte (s : JsonDecoderState) (b : Byte) : JsonDecoderState :=
  if b = newline then ⟨[], s.pending ++ [s.current]⟩
  else ⟨s.current ++ [b], s.pending⟩

/-- Modelled from the spec: `ChunkDecoder.decode(bytes) -> bytes_consumed`;
this decoder accepts every supplied byte and keeps any trailing incomplete
record in its own state ("decode calls must be resumable"). -/
def JsonDecoderState.decode (s : JsonDecoderState) (buf : List Byte) :
    Nat × JsonDecoderState :=
  (buf.length, buf.foldl decodeByte s)

/-- Modelled from the spec: `ChunkDecoder.flush() -> Option<Batch>` —
"flush returns a batch only when at least one full record has been
accumulated since the last flush; returns nothing (not an error) when no
complete record is pending". -/
def JsonDecoderState.flush (s : JsonDecoderState) :
    Option (List (List Byte)) × JsonDecoderState :=
  match s.pending with
  | [] => (none, s)
  | ps => (some ps, ⟨s.current, []⟩)

/-- A decoder implementation as seen by the deserializer state machine:
`decode`, `flush` and the early-flush capability flag. -/
structure DecoderImpl (σ : Type) where
  decode : σ → List Byte → Nat × σ
  flush : σ → Option (List (List Byte)) × σ
  canFlushEarly : Bool

/-- The JSON decoder plugged into the state machine, with
`JsonDecoder::can_flush_early` as its capability flag. -/
def jsonDecoderImpl : DecoderImpl JsonDecoderState :=
  ⟨JsonDecoderState.decode, JsonDecoderState.flush, JsonDecoder.can_flush_early⟩

/-- Output protocol of `next()`. -/
inductive DeserializerOutput where
  | recordBatch (rows : List (List Byte))
  | requiresMoreData
  | inputExhausted
deriving DecidableEq, Repr

/-- Modelled from the spec: the mutable state of the
`DecoderDeserializer` — "per-deserializer mutable state = (pending byte
buffer, decoder state, finished flag)" plus the terminal
`InputExhausted` marker. -/
structure DecoderDeserializer (σ : Type) where
  decoder : σ
  buffer : List Byte
  finalized : Bool
  exhausted : Bool
deriving DecidableEq, Repr

/-- Modelled from the spec: `digest(bytes)` "appends bytes to the internal
buffer; does not itself decode". -/
def DecoderDeserializer.digest (d : DecoderDeserializer σ) (msg : List Byte) :
    DecoderDeserializer σ :=
  { d with buffer := d.buffer ++ msg }

/-- Modelled from the spec: `finish()` "marks no further bytes will be
supplied". -/
def DecoderDeserializer.finish (d : DecoderDeserializer σ) : DecoderDeserializer σ :=
  { d with finalized := true }

/-- Modelled from the spec: `next()` — decode as much of the buffered
bytes as the decoder will accept, retain the unconsumed suffix, then flush
(only when the decoder made all possible progress, `finish` was called, or
the decoder declares the early-flush capability).  A flushed batch is
returned; otherwise `RequiresMoreData` before `finish` and
`InputExhausted` (a terminal, sticky state) after it. -/
def DecoderDeserializer.next (impl : DecoderImpl σ) (d : DecoderDeserializer σ) :
    DeserializerOutput × DecoderDeserializer σ :=
  if d.exhausted then (.inputExhausted, d)
  else
    let dec := impl.decode d.decoder d.buffer
    let rest := d.buffer.drop dec.1
    if impl.canFlushEarly || rest.isEmpty || d.finalized then
      match impl.flush dec.2 with
      | (some rows, s₂) =>
        (.recordBatch rows, ⟨s₂, rest, d.finalized, false⟩)
      | (none, s₂) =>
        if d.finalized then (.inputExhausted, ⟨s₂, rest, true, true⟩)
        else (.requiresMoreData, ⟨s₂, rest, false, false⟩)
    else
      (.requiresMoreData, ⟨dec.2, rest, d.finalized, false⟩)

/-- The deserializer built over a fresh JSON decoder
(`DecoderDeserializer::new(JsonDecoder::new(decoder))`, json.rs lines
418-422). -/
def initialDeserializer : DecoderDeserializer JsonDecoderState :=
  ⟨⟨[], []⟩, [], false, false⟩

/-- Feed a list of chunks through successive `digest` calls. -/
def digestAll (chunks : List (List Byte)) (d : DecoderDeserializer JsonDecoderState) :
    DecoderDeserializer JsonDecoderState :=
  chunks.foldl DecoderDeserializer.digest d

/-- The byte encoding of a list of newline-free records in the
line-delimited wire format: each record followed by a newline. -/
def encodeRecords (recs : List (List Byte)) : List Byte :=
  (recs.map (fun r => r ++ [newline])).flatten

/-- Drain the deserializer with `next()` calls, collecting emitted rows;
`some rows` once `InputExhausted` is reached within `fuel` calls, `none`
otherwise. -/
def drainRows (impl : DecoderImpl σ) : Nat → DecoderDeserializer σ →
    Option (List (List Byte))
  | 0, _ => none
  | fuel + 1, d =>
    match DecoderDeserializer.next impl d with
    | (.recordBatch rows, d') => (drainRows impl fuel d').map (fun tl => rows ++ tl)
    | (.inputExhausted, _) => some []
    | (.requiresMoreData, _) => none

/-- Iterate `next`, returning the output of the k-th subsequent call. -/
def iterNext (impl : DecoderImpl σ) : Nat → DecoderDeserializer σ →
    DeserializerOutput × DecoderDeserializer σ
  | 0, d => DecoderDeserializer.next impl d
  | k + 1, d => iterNext impl k (DecoderDeserializer.next impl d).2

/-- Deserializer states reachable from the initial state through the
digest / finish / next protocol. -/
inductive ReachableDeser : DecoderDeserializer JsonDecoderState → Prop where
  | init : ReachableDeser initialDeserializer
  | digest {d} (msg : List Byte) :
      ReachableDeser d → ReachableDeser (d.digest msg)
  | finish {d} : ReachableDeser d → ReachableDeser d.finish
  | next {d} : ReachableDeser d →
      ReachableDeser (DecoderDeserializer.next jsonDecoderImpl d).2

/-- The (type, nullability) payload of a field. -/
def fieldTB (f : Field) : TB := (f.dataType, f.nullable)

/-- One step of the per-name semantic fold. -/
def tbStep (acc : Option (Option TB)) (x : TB) : Option (Option TB) :=
  match acc with
  | none => some (some x)
  | some none => some none
  | some (some a) => some (combineTB a x)

/-- Per-name semantic fold over a list of payloads. -/
def tbFold (xs : List TB) : Option (Option TB) :=
  xs.foldl tbStep none

/-- The semantic merge outcome for name `n` over a flat field list. -/
def charTB (fs : List Field) (n : String) : Option (Option TB) :=
  tbFold ((fs.filter (fun f => f.name == n)).map fieldTB)

/-- Combining a first payload `t` into the semantic outcome of a later
list. -/
def prependTB (t : TB) : Option (Option TB) → Option (Option TB)
  | none => some (some t)
  | some none => some none
  | some (some u) => some (combineTB t u)

instance : RightCommutative tbStep := ⟨by decide⟩

/-- Total number of records across a list of objects. -/
def totalRecords (objs : List (List Record)) : Nat :=
  (objs.map List.length).sum

/-! ## Sanity checks and proofs -/

example :
    Schema.try_merge [⟨[⟨"a", .int64, false⟩]⟩, ⟨[⟨"a", .null, false⟩, ⟨"b", .utf8, true⟩]⟩]
      = .ok ⟨[⟨"a", .int64, true⟩, ⟨"b", .utf8, true⟩]⟩ := by decide

example :
    Schema.try_merge [⟨[⟨"a", .int64, false⟩]⟩, ⟨[⟨"a", .utf8, false⟩]⟩]
      = .error .conflict := by decide

example :
    JsonFormat.infer_schema ⟨none, .uncompressed⟩
      [.ok [[("a", .int 1), ("b", .float)]], .ok [[("a", .int 3), ("b", .null), ("c", .str "x")]]]
      = .ok ⟨[⟨"a", .int64, true⟩, ⟨"b", .float64, true⟩, ⟨"c", .utf8, true⟩]⟩ := by decide

theorem tbStep_rightComm : ∀ (a : Option (Option TB)) (x y : TB),
    tbStep (tbStep a x) y = tbStep (tbStep a y) x := by decide

/-! ## Semantic characterization of the schema merge

The merged schema is characterized name-by-name: for each field name, the
fold of `combineTB` over the (type, nullability) payloads of the fields
carrying that name, in order of appearance.  `none` means the name never
occurs, `some none` means it conflicts. -/

theorem tbStep_isSome (a : Option (Option TB)) (x : TB) :
    (tbStep a x).isSome := by
  rcases a with _ | _ | a <;> simp [tbStep]

theorem foldl_tbStep_some (xs : List TB) :
    ∀ v : Option TB, ∃ w, xs.foldl tbStep (some v) = some w := by
  induction xs with
  | nil => intro v; exact ⟨v, rfl⟩
  | cons x xs ih =>
    intro v
    rcases v with _ | a
    · simpa [tbStep] using ih none
    · simpa [tbStep] using ih (combineTB a x)

theorem foldl_tbStep_absorb (xs : List TB) :
    xs.foldl tbStep (some none) = some none := by
  induction xs with
  | nil => rfl
  | cons x xs ih => simpa [tbStep] using ih

theorem combineTB_assoc_aux : ∀ t y u : TB,
    (match combineTB t y with
     | some v => (combineTB v u : Option TB)
     | none => none)
    = (match combineTB y u with
       | some w => combineTB t w
       | none => none) := by decide

theorem combineTB_conflict_sticks : ∀ t y u : TB,
    combineTB t y = none → combineTB y u = some u → combineTB t u = none := by
  decide

theorem foldl_tbStep_lift (xs : List TB) :
    ∀ t : TB, xs.foldl tbStep (some (some t)) = prependTB t (tbFold xs) := by
  induction xs with
  | nil => intro t; rfl
  | cons y xs ih =>
    intro t
    have hy : tbFold (y :: xs) = prependTB y (tbFold xs) := by
      simpa [tbFold, tbStep] using ih y
    rw [hy, List.foldl_cons]
    rcases hvy : combineTB t y with _ | v
    case none =>
      have hstep : tbStep (some (some t)) y = some none := by simp [tbStep, hvy]
      rw [hstep, foldl_tbStep_absorb]
      rcases hfx : tbFold xs with _ | _ | u
      · simp [prependTB, hvy]
      · simp [prependTB]
      · rcases hyu : combineTB y u with _ | w
        · simp [prependTB, hyu]
        · have h2 := combineTB_assoc_aux t y u
          rw [hvy, hyu] at h2
          have h3 : (none : Option TB) = combineTB t w := h2
          simp [prependTB, hyu, ← h3]
    case some =>
      have hstep : tbStep (some (some t)) y = some (some v) := by simp [tbStep, hvy]
      rw [hstep, ih v]
      rcases hfx : tbFold xs with _ | _ | u
      · simp [prependTB, hvy]
      · simp [prependTB]
      · have h2 := combineTB_assoc_aux t y u
        rw [hvy] at h2
        rcases hyu : combineTB y u with _ | w
        · rw [hyu] at h2
          have h3 : combineTB v u = (none : Option TB) := h2
          simp [prependTB, hyu, h3]
        · rw [hyu] at h2
          have h3 : combineTB v u = combineTB t w := h2
          simp [prependTB, hyu, h3]

theorem findName_cons (g : Field) (gs : List Field) (n : String) :
    findName (g :: gs) n = if g.name == n then some g else findName gs n := by
  cases hg : (g.name == n) <;> simp [findName, List.find?_cons, hg]

theorem findName_append (l₁ l₂ : List Field) (n : String) :
    findName (l₁ ++ l₂) n = (findName l₁ n).or (findName l₂ n) := by
  simp [findName, List.find?_append]

theorem findName_single (f : Field) (n : String) :
    findName [f] n = if f.name == n then some f else none := by
  cases hf : (f.name == n) <;> simp [findName, List.find?_cons, hf]

theorem findName_name {fs : List Field} {n : String} {g : Field}
    (h : findName fs n = some g) : g.name = n := by
  have := List.find?_some h
  simpa [beq_iff_eq] using this

theorem tbFold_append (xs ys : List TB) :
    tbFold (xs ++ ys) =
      (match tbFold xs with
       | none => tbFold ys
       | some none => some none
       | some (some t) => prependTB t (tbFold ys)) := by
  show List.foldl tbStep none (xs ++ ys) = _
  rw [List.foldl_append]
  rcases hx : tbFold xs with _ | _ | t
  · rw [show List.foldl tbStep none xs = none from hx]; rfl
  · rw [show List.foldl tbStep none xs = some none from hx]
    exact foldl_tbStep_absorb ys
  · rw [show List.foldl tbStep none xs = some (some t) from hx]
    exact foldl_tbStep_lift ys t

theorem charTB_append (A B : List Field) (n : String) :
    charTB (A ++ B) n =
      (match charTB A n with
       | none => charTB B n
       | some none => some none
       | some (some t) => prependTB t (charTB B n)) := by
  unfold charTB
  rw [List.filter_append, List.map_append, tbFold_append]

theorem charTB_append_single (fs : List Field) (f : Field) (n : String) :
    charTB (fs ++ [f]) n =
      if f.name == n then tbStep (charTB fs n) (fieldTB f) else charTB fs n := by
  unfold charTB
  rw [List.filter_append]
  cases hf : (f.name == n) with
  | true =>
    simp only [List.filter, hf, if_pos]
    rw [List.map_append, tbFold, List.foldl_append]
    rfl
  | false =>
    simp [List.filter, hf]

theorem try_merge_ok {g f m : Field} (h : Field.try_merge g f = .ok m) :
    m.name = g.name ∧ combineTB (fieldTB g) (fieldTB f) = some (fieldTB m) := by
  unfold Field.try_merge at h
  rcases hc : combineTB (g.dataType, g.nullable) (f.dataType, f.nullable) with _ | tb
  · rw [hc] at h; cases h
  · rw [hc] at h
    injection h with h
    subst h
    exact ⟨rfl, hc⟩

theorem try_merge_error {g f : Field} {e : MergeError}
    (h : Field.try_merge g f = .error e) :
    combineTB (fieldTB g) (fieldTB f) = none := by
  unfold Field.try_merge at h
  rcases hc : combineTB (g.dataType, g.nullable) (f.dataType, f.nullable) with _ | tb
  · exact hc
  · rw [hc] at h; cases h

theorem mergeFieldInto_not_found (f : Field) :
    ∀ acc, findName acc f.name = none → mergeFieldInto acc f = .ok (acc ++ [f]) := by
  intro acc
  induction acc with
  | nil => intro _; rfl
  | cons g gs ih =>
    intro h
    rw [findName_cons] at h
    cases hg : (g.name == f.name) with
    | true => rw [hg] at h; simp at h
    | false =>
      rw [hg] at h
      simp only [Bool.false_eq_true, if_false] at h
      simp [mergeFieldInto, hg, ih h]

theorem mergeFieldInto_found (f : Field) :
    ∀ acc g, findName acc f.name = some g →
      ∃ pre post, acc = pre ++ g :: post ∧ findName pre f.name = none ∧
        g.name = f.name ∧
        (match Field.try_merge g f with
         | .ok m => mergeFieldInto acc f = .ok (pre ++ m :: post)
         | .error e => mergeFieldInto acc f = .error e) := by
  intro acc
  induction acc with
  | nil => intro g h; simp [findName] at h
  | cons a gs ih =>
    intro g h
    rw [findName_cons] at h
    cases ha : (a.name == f.name) with
    | true =>
      rw [ha] at h
      simp only [if_pos] at h
      injection h with h
      subst h
      refine ⟨[], gs, rfl, rfl, beq_iff_eq.mp ha, ?_⟩
      cases hm : Field.try_merge a f with
      | ok m => simp [mergeFieldInto, ha, hm]
      | error e => simp [mergeFieldInto, ha, hm]
    | false =>
      rw [ha] at h
      simp only [Bool.false_eq_true, if_false] at h
      obtain ⟨pre, post, hacc, hpre, hgf, hres⟩ := ih g h
      refine ⟨a :: pre, post, by rw [hacc]; rfl, ?_, hgf, ?_⟩
      · rw [findName_cons, ha]
        simpa using hpre
      · cases hm : Field.try_merge g f with
        | ok m =>
          rw [hm] at hres
          have hres' : mergeFieldInto gs f = .ok (pre ++ m :: post) := hres
          simp [mergeFieldInto, ha, hres']
        | error e =>
          rw [hm] at hres
          have hres' : mergeFieldInto gs f = .error e := hres
          simp [mergeFieldInto, ha, hres']

theorem charTB_conflict (processed : List Field) (f : Field) (fs : List Field)
    (tbg : TB) (h0 : charTB processed f.name = some (some tbg))
    (hc : combineTB tbg (fieldTB f) = none) :
    charTB (processed ++ f :: fs) f.name = some none := by
  have h1 : processed ++ f :: fs = (processed ++ [f]) ++ fs := by simp
  rw [h1, charTB_append]
  have h2 : charTB (processed ++ [f]) f.name = some none := by
    rw [charTB_append_single]
    simp [h0, tbStep, hc]
  rw [h2]

/-- Main semantic characterization of `mergeFields`: when the fold
succeeds, looking a name up in the result agrees with the per-name
semantic fold over all processed fields (and the result has no duplicate
names); when it fails, some name's semantic fold conflicts. -/
theorem mergeFields_char (fs : List Field) :
    ∀ acc processed,
      (∀ n, charTB processed n = (findName acc n).map (fun g => some (fieldTB g))) →
      ((acc.map Field.name).Nodup) →
      (∀ res, mergeFields acc fs = .ok res →
        (∀ n, charTB (processed ++ fs) n = (findName res n).map (fun g => some (fieldTB g)))
        ∧ (res.map Field.name).Nodup)
      ∧ (∀ e, mergeFields acc fs = .error e →
        ∃ n, charTB (processed ++ fs) n = some none) := by
  induction fs with
  | nil =>
    intro acc processed hinv hnd
    constructor
    · intro res h
      simp only [mergeFields] at h
      injection h with h
      subst h
      exact ⟨by simpa using hinv, hnd⟩
    · intro e h
      simp only [mergeFields] at h
      cases h
  | cons f fs ih =>
    intro acc processed hinv hnd
    have hl : processed ++ f :: fs = (processed ++ [f]) ++ fs := by simp
    cases hfind : findName acc f.name with
    | none =>
      have hstep := mergeFieldInto_not_found f acc hfind
      have hrw : mergeFields acc (f :: fs) = mergeFields (acc ++ [f]) fs := by
        simp [mergeFields, hstep]
      have hinv' : ∀ n, charTB (processed ++ [f]) n
          = (findName (acc ++ [f]) n).map (fun g => some (fieldTB g)) := by
        intro n
        rw [charTB_append_single, findName_append, findName_single]
        cases hf : (f.name == n) with
        | true =>
          have hn : f.name = n := beq_iff_eq.mp hf
          subst hn
          have h0 : charTB processed f.name = none := by
            rw [hinv f.name, hfind]; rfl
          rw [hfind, h0]
          simp [tbStep]
        | false =>
          rw [hinv n]
          simp
      have hnd' : ((acc ++ [f]).map Field.name).Nodup := by
        rw [List.map_append]
        have hmem : f.name ∉ acc.map Field.name := by
          intro hmem
          obtain ⟨g, hg, hgn⟩ := List.mem_map.mp hmem
          exact (List.find?_eq_none.mp hfind) g hg (by simp [hgn])
        simp [List.nodup_append, hnd, List.disjoint_singleton, hmem]
      have IH := ih (acc ++ [f]) (processed ++ [f]) hinv' hnd'
      constructor
      · intro res h
        rw [hrw] at h
        rw [hl]
        exact IH.1 res h
      · intro e h
        rw [hrw] at h
        obtain ⟨n, hn⟩ := IH.2 e h
        exact ⟨n, by rw [hl]; exact hn⟩
    | some g =>
      obtain ⟨pre, post, hacc, hpre, hgfn, hres⟩ := mergeFieldInto_found f acc g hfind
      cases hm : Field.try_merge g f with
      | error e0 =>
        rw [hm] at hres
        have hres' : mergeFieldInto acc f = .error e0 := hres
        have hrw : ∀ r, mergeFields acc (f :: fs) = r ↔ Except.error e0 = r := by
          intro r
          simp [mergeFields, hres']
        have h0 : charTB processed f.name = some (some (fieldTB g)) := by
          rw [hinv f.name, hfind]; rfl
        have hc : combineTB (fieldTB g) (fieldTB f) = none := try_merge_error hm
        constructor
        · intro res h
          rw [hrw] at h
          cases h
        · intro e h
          exact ⟨f.name, charTB_conflict processed f fs (fieldTB g) h0 hc⟩
      | ok m =>
        rw [hm] at hres
        have hres' : mergeFieldInto acc f = .ok (pre ++ m :: post) := hres
        have hrw : mergeFields acc (f :: fs) = mergeFields (pre ++ m :: post) fs := by
          simp [mergeFields, hres']
        obtain ⟨hmname, hmtb⟩ := try_merge_ok hm
        have hinv' : ∀ n, charTB (processed ++ [f]) n
            = (findName (pre ++ m :: post) n).map (fun x => some (fieldTB x)) := by
          intro n
          rw [charTB_append_single, findName_append, findName_cons]
          cases hf : (f.name == n) with
          | true =>
            have hn : f.name = n := beq_iff_eq.mp hf
            subst hn
            have h0 : charTB processed f.name = some (some (fieldTB g)) := by
              rw [hinv f.name, hfind]; rfl
            rw [h0, hpre]
            have hm2 : (m.name == f.name) = true := by
              rw [hmname, hgfn]; exact beq_self_eq_true _
            rw [hm2]
            simp [tbStep, hmtb]
          | false =>
            have hn : f.name ≠ n := by
              intro hcontra
              rw [hcontra] at hf
              simp at hf
            have hg2 : (g.name == n) = false := by
              rw [hgfn]; exact beq_false_of_ne hn
            have hm2 : (m.name == n) = false := by
              rw [hmname, hgfn]; exact beq_false_of_ne hn
            rw [hinv n, hacc, findName_append, findName_cons, hg2, hm2]
            simp
        have hnd' : ((pre ++ m :: post).map Field.name).Nodup := by
          have hsame : (pre ++ m :: post).map Field.name
              = (pre ++ g :: post).map Field.name := by
            simp [hmname]
          rw [hsame, ← hacc]
          exact hnd
        have IH := ih (pre ++ m :: post) (processed ++ [f]) hinv' hnd'
        constructor
        · intro res h
          rw [hrw] at h
          rw [hl]
          exact IH.1 res h
        · intro e h
          rw [hrw] at h
          obtain ⟨n, hn⟩ := IH.2 e h
          exact ⟨n, by rw [hl]; exact hn⟩

theorem try_merge_char_ok {l : List Schema} {s : Schema}
    (h : Schema.try_merge l = .ok s) :
    (∀ n, charTB (flatFields l) n = (findName s.fields n).map (fun g => some (fieldTB g)))
    ∧ (s.fields.map Field.name).Nodup := by
  have hbase : ∀ n, charTB ([] : List Field) n
      = (findName [] n).map (fun g => some (fieldTB g)) := by
    intro n; rfl
  have H := mergeFields_char (flatFields l) [] [] hbase (by simp)
  unfold Schema.try_merge at h
  cases hm : mergeFields [] (flatFields l) with
  | ok fs =>
    rw [hm] at h
    injection h with h
    subst h
    simpa using H.1 fs hm
  | error e => rw [hm] at h; cases h

theorem try_merge_char_error {l : List Schema} {e : MergeError}
    (h : Schema.try_merge l = .error e) :
    ∃ n, charTB (flatFields l) n = some none := by
  have hbase : ∀ n, charTB ([] : List Field) n
      = (findName [] n).map (fun g => some (fieldTB g)) := by
    intro n; rfl
  have H := mergeFields_char (flatFields l) [] [] hbase (by simp)
  unfold Schema.try_merge at h
  cases hm : mergeFields [] (flatFields l) with
  | ok fs => rw [hm] at h; cases h
  | error e0 => simpa using H.2 e0 hm

theorem char_ok_no_conflict {l : List Schema} {s : Schema}
    (h : Schema.try_merge l = .ok s) :
    ∀ n, charTB (flatFields l) n ≠ some none := by
  intro n hcontra
  have hchar := (try_merge_char_ok h).1 n
  rw [hcontra] at hchar
  cases hfn : findName s.fields n with
  | none => rw [hfn] at hchar; cases hchar
  | some g =>
    rw [hfn] at hchar
    injection hchar with hchar
    cases hchar

theorem charTB_perm {l₁ l₂ : List Field} (h : l₁.Perm l₂) (n : String) :
    charTB l₁ n = charTB l₂ n := by
  unfold charTB tbFold
  exact ((h.filter _).map fieldTB).foldl_eq none

theorem flatFields_perm {l₁ l₂ : List Schema} (h : l₁.Perm l₂) :
    (flatFields l₁).Perm (flatFields l₂) := by
  unfold flatFields
  exact List.Perm.flatMap_right (fun s => s.fields) h

theorem field_eq_of_tb {g1 g2 : Field} (hname : g1.name = g2.name)
    (htb : fieldTB g1 = fieldTB g2) : g1 = g2 := by
  cases g1 with
  | mk n1 t1 b1 =>
    cases g2 with
    | mk n2 t2 b2 =>
      injection htb with h1 h2
      simp only at hname h1 h2
      rw [hname, h1, h2]

/-- Two schema lists with the same per-name semantic outcomes have the
same merge outcome (identical success/failure) and the same by-name field
lookup. -/
theorem mergedLookup_congr {l₁ l₂ : List Schema}
    (hchar : ∀ m, charTB (flatFields l₁) m = charTB (flatFields l₂) m)
    (n : String) :
    mergedLookup l₁ n = mergedLookup l₂ n := by
  unfold mergedLookup
  cases h1 : Schema.try_merge l₁ with
  | error e1 =>
    cases h2 : Schema.try_merge l₂ with
    | error e2 => cases e1; cases e2; rfl
    | ok s2 =>
      obtain ⟨n0, hn0⟩ := try_merge_char_error h1
      exact absurd ((hchar n0).symm.trans hn0) (char_ok_no_conflict h2 n0)
  | ok s1 =>
    cases h2 : Schema.try_merge l₂ with
    | error e2 =>
      obtain ⟨n0, hn0⟩ := try_merge_char_error h2
      exact absurd ((hchar n0).trans hn0) (char_ok_no_conflict h1 n0)
    | ok s2 =>
      have e1 := (try_merge_char_ok h1).1 n
      have e2 := (try_merge_char_ok h2).1 n
      have hmapeq : (findName s1.fields n).map (fun g => some (fieldTB g))
          = (findName s2.fields n).map (fun g => some (fieldTB g)) := by
        rw [← e1, ← e2]; exact hchar n
      have hfeq : findName s1.fields n = findName s2.fields n := by
        cases hf1 : findName s1.fields n with
        | none =>
          cases hf2 : findName s2.fields n with
          | none => rfl
          | some g2 => rw [hf1, hf2] at hmapeq; cases hmapeq
        | some g1 =>
          cases hf2 : findName s2.fields n with
          | none => rw [hf1, hf2] at hmapeq; cases hmapeq
          | some g2 =>
            rw [hf1, hf2] at hmapeq
            injection hmapeq with hmapeq
            injection hmapeq with hmapeq
            have hn1 := findName_name hf1
            have hn2 := findName_name hf2
            rw [field_eq_of_tb (hn1.trans hn2.symm) hmapeq]
      simp [Except.map, hfeq]

/-- Permutation invariance of the schema merge, up to field order: a
permutation of the schema list yields the same merge outcome (identical
success/failure) and the same by-name field lookup. -/
theorem mergedLookup_perm {l₁ l₂ : List Schema} (h : l₁.Perm l₂) (n : String) :
    mergedLookup l₁ n = mergedLookup l₂ n :=
  mergedLookup_congr (fun m => charTB_perm (flatFields_perm h) m) n

theorem charTB_cons (g : Field) (gs : List Field) (n : String) :
    charTB (g :: gs) n =
      if g.name == n then prependTB (fieldTB g) (charTB gs n) else charTB gs n := by
  unfold charTB
  cases hg : (g.name == n) with
  | true =>
    simp only [List.filter, hg, List.map_cons, if_pos]
    rw [tbFold, List.foldl_cons]
    exact foldl_tbStep_lift _ _
  | false =>
    simp [List.filter, hg]

theorem charTB_eq_none_of_not_found (gs : List Field) (n : String)
    (h : findName gs n = none) : charTB gs n = none := by
  induction gs with
  | nil => rfl
  | cons g gs ih =>
    rw [findName_cons] at h
    cases hg : (g.name == n) with
    | true => rw [hg] at h; simp at h
    | false =>
      rw [hg] at h
      simp only [Bool.false_eq_true, if_false] at h
      rw [charTB_cons, hg]
      simp [ih h]

/-- On a field list without duplicate names, the semantic per-name fold is
exactly the by-name lookup. -/
theorem charTB_of_nodup (fs : List Field) (hnd : (fs.map Field.name).Nodup)
    (n : String) :
    charTB fs n = (findName fs n).map (fun g => some (fieldTB g)) := by
  induction fs with
  | nil => rfl
  | cons g gs ih =>
    rw [List.map_cons, List.nodup_cons] at hnd
    obtain ⟨hni, hndt⟩ := hnd
    rw [charTB_cons, findName_cons]
    cases hg : (g.name == n) with
    | true =>
      simp only [if_pos]
      have hn := beq_iff_eq.mp hg
      subst hn
      have hfn : findName gs g.name = none := by
        unfold findName
        rw [List.find?_eq_none]
        intro x hx hpred
        exact hni (List.mem_map.mpr ⟨x, hx, beq_iff_eq.mp hpred⟩)
      rw [charTB_eq_none_of_not_found gs _ hfn]
      rfl
    | false =>
      simp only [Bool.false_eq_true, if_false]
      exact ih hndt

/-- Associativity of the schema merge, up to field order: merging
`l₁ ++ l₂` has the same outcome and by-name lookup as merging the two
already-merged schemas. -/
theorem mergedLookup_append {l₁ l₂ : List Schema} {s₁ s₂ : Schema}
    (h1 : Schema.try_merge l₁ = .ok s₁) (h2 : Schema.try_merge l₂ = .ok s₂)
    (n : String) :
    mergedLookup (l₁ ++ l₂) n = mergedLookup [s₁, s₂] n := by
  refine mergedLookup_congr (fun m => ?_) n
  have hA : flatFields (l₁ ++ l₂) = flatFields l₁ ++ flatFields l₂ := by
    simp [flatFields]
  have hB : flatFields [s₁, s₂] = s₁.fields ++ s₂.fields := by
    simp [flatFields]
  rw [hA, hB, charTB_append, charTB_append,
    (try_merge_char_ok h1).1 m, (try_merge_char_ok h2).1 m,
    charTB_of_nodup s₁.fields (try_merge_char_ok h1).2 m,
    charTB_of_nodup s₂.fields (try_merge_char_ok h2).2 m]

theorem tbFold_ne_none {xs : List TB} (h : xs ≠ []) : tbFold xs ≠ none := by
  cases xs with
  | nil => exact absurd rfl h
  | cons x xs =>
    unfold tbFold
    rw [List.foldl_cons]
    have hstep : tbStep none x = some (some x) := rfl
    rw [hstep]
    obtain ⟨w, hw⟩ := foldl_tbStep_some xs (some x)
    rw [hw]
    simp

theorem combineTB_some_types : ∀ u x v : TB, combineTB u x = some v →
    ((v.1 = DataType.null → u.1 = DataType.null ∧ x.1 = DataType.null) ∧
     (u.1 = DataType.null ∨ u.1 = v.1) ∧ (x.1 = DataType.null ∨ x.1 = v.1)) := by
  decide

/-- Every payload folded into a successful semantic outcome has either the
null type or the outcome's type. -/
theorem tbFold_ok_types (xs : List TB) :
    ∀ a t nb, xs.foldl tbStep a = some (some (t, nb)) →
      (∀ x ∈ xs, x.1 = DataType.null ∨ x.1 = t) ∧
      (match a with
       | none => True
       | some none => False
       | some (some u) => u.1 = DataType.null ∨ u.1 = t) := by
  induction xs with
  | nil =>
    intro a t nb h
    have h' : a = some (some (t, nb)) := h
    subst h'
    exact ⟨fun x hx => absurd hx (List.not_mem_nil x), Or.inr rfl⟩
  | cons x xs ih =>
    intro a t nb h
    rw [List.foldl_cons] at h
    rcases a with _ | _ | u
    · have hstep : tbStep none x = some (some x) := rfl
      rw [hstep] at h
      have IH := ih (some (some x)) t nb h
      refine ⟨?_, trivial⟩
      intro y hy
      rcases List.mem_cons.mp hy with hy | hy
      · subst hy
        have := IH.2
        simpa using this
      · exact IH.1 y hy
    · have hstep : tbStep (some none) x = some none := rfl
      rw [hstep, foldl_tbStep_absorb] at h
      cases h
    · have hstep : tbStep (some (some u)) x = some (combineTB u x) := rfl
      rw [hstep] at h
      rcases hc : combineTB u x with _ | v
      · rw [hc, foldl_tbStep_absorb] at h
        cases h
      · rw [hc] at h
        have IH := ih (some (some v)) t nb h
        have hv : v.1 = DataType.null ∨ v.1 = t := by simpa using IH.2
        have hinfo := combineTB_some_types u x v hc
        constructor
        · intro y hy
          rcases List.mem_cons.mp hy with hy | hy
          · subst hy
            rcases hv with hv | hv
            · exact Or.inl (hinfo.1 hv).2
            · rcases hinfo.2.2 with hx | hx
              · exact Or.inl hx
              · exact Or.inr (hx.trans hv)
          · exact IH.1 y hy
        · show u.1 = DataType.null ∨ u.1 = t
          rcases hv with hv | hv
          · exact Or.inl (hinfo.1 hv).1
          · rcases hinfo.2.1 with hu | hu
            · exact Or.inl hu
            · exact Or.inr (hu.trans hv)

/-- A name occurring in the input always has a (unique) field in a
successfully merged schema. -/
theorem findName_merged_isSome {l : List Schema} {s : Schema}
    (hm : Schema.try_merge l = .ok s) {f : Field} (hf : f ∈ flatFields l) :
    ∃ g, findName s.fields f.name = some g := by
  have hchar := (try_merge_char_ok hm).1 f.name
  cases hfn : findName s.fields f.name with
  | some g => exact ⟨g, rfl⟩
  | none =>
    rw [hfn] at hchar
    exfalso
    have hmem : fieldTB f ∈ ((flatFields l).filter (fun x => x.name == f.name)).map fieldTB :=
      List.mem_map.mpr ⟨f, List.mem_filter.mpr ⟨hf, beq_self_eq_true _⟩, rfl⟩
    have hne : ((flatFields l).filter (fun x => x.name == f.name)).map fieldTB ≠ [] := by
      intro hcontra
      rw [hcontra] at hmem
      cases hmem
    exact tbFold_ne_none hne (by simpa [charTB] using hchar)

/-- In a successful merge, every input field's type is null or the merged
field's type. -/
theorem merged_type_bound {l : List Schema} {s : Schema}
    (hm : Schema.try_merge l = .ok s) {f : Field} (hf : f ∈ flatFields l) :
    ∃ g, findName s.fields f.name = some g ∧
      (f.dataType = DataType.null ∨ f.dataType = g.dataType) := by
  obtain ⟨g, hg⟩ := findName_merged_isSome hm hf
  refine ⟨g, hg, ?_⟩
  have hchar := (try_merge_char_ok hm).1 f.name
  rw [hg] at hchar
  have hchar' : (((flatFields l).filter (fun x => x.name == f.name)).map fieldTB).foldl
      tbStep none = some (some (g.dataType, g.nullable)) := by
    simpa [charTB, tbFold, fieldTB] using hchar
  have hall := (tbFold_ok_types _ none g.dataType g.nullable hchar').1
  have hmem : fieldTB f ∈ ((flatFields l).filter (fun x => x.name == f.name)).map fieldTB :=
    List.mem_map.mpr ⟨f, List.mem_filter.mpr ⟨hf, beq_self_eq_true _⟩, rfl⟩
  simpa [fieldTB] using hall (fieldTB f) hmem

/-! ## Behaviour of the decoder state machine -/

theorem foldl_decodeByte_no_newline (r : List Byte) :
    ∀ c p, newline ∉ r →
      r.foldl decodeByte ⟨c, p⟩ = ⟨c ++ r, p⟩ := by
  induction r with
  | nil => intro c p _; simp
  | cons b r ih =>
    intro c p h
    have hb : b ≠ newline := by
      intro hcontra
      exact h (hcontra ▸ List.mem_cons_self b r)
    have hr : newline ∉ r := fun hmem => h (List.mem_cons_of_mem b hmem)
    rw [List.foldl_cons]
    have hstep : decodeByte ⟨c, p⟩ b = ⟨c ++ [b], p⟩ := by
      unfold decodeByte
      rw [if_neg (fun hcontra => hb hcontra)]
    rw [hstep, ih (c ++ [b]) p hr]
    simp

theorem foldl_decodeByte_encode (recs : List (List Byte)) :
    ∀ p, (∀ r ∈ recs, newline ∉ r) →
      (encodeRecords recs).foldl decodeByte ⟨[], p⟩ = ⟨[], p ++ recs⟩ := by
  induction recs with
  | nil => intro p _; simp [encodeRecords]
  | cons r recs ih =>
    intro p h
    have hr : newline ∉ r := h r (List.mem_cons_self r recs)
    have hrest : ∀ x ∈ recs, newline ∉ x :=
      fun x hx => h x (List.mem_cons_of_mem r hx)
    have henc : encodeRecords (r :: recs) = (r ++ [newline]) ++ encodeRecords recs := by
      simp [encodeRecords]
    rw [henc, List.foldl_append, List.foldl_append]
    rw [foldl_decodeByte_no_newline r [] p hr]
    have hnl : decodeByte ⟨[] ++ r, p⟩ newline = ⟨[], p ++ [[] ++ r]⟩ := by
      unfold decodeByte
      rw [if_pos rfl]
    show (encodeRecords recs).foldl decodeByte (List.foldl decodeByte ⟨[] ++ r, p⟩ [newline]) = _
    rw [List.foldl_cons]
    simp only [List.foldl_nil, hnl]
    rw [ih (p ++ [[] ++ r]) hrest]
    simp

theorem digestAll_buffer (chunks : List (List Byte)) :
    ∀ d : DecoderDeserializer JsonDecoderState,
      digestAll chunks d = ⟨d.decoder, d.buffer ++ chunks.flatten, d.finalized, d.exhausted⟩ := by
  induction chunks with
  | nil => intro d; simp [digestAll]
  | cons c cs ih =>
    intro d
    show digestAll cs (d.digest c) = _
    rw [ih (d.digest c)]
    simp [DecoderDeserializer.digest, List.append_assoc]

/-- One `next` call on a finalized deserializer holding the encoding of a
non-empty record list: the whole batch is flushed. -/
theorem next_encode_cons (r : List Byte) (rs : List (List Byte)) (fin : Bool)
    (h : ∀ x ∈ r :: rs, newline ∉ x) :
    DecoderDeserializer.next jsonDecoderImpl ⟨⟨[], []⟩, encodeRecords (r :: rs), fin, false⟩
      = (.recordBatch (r :: rs), ⟨⟨[], []⟩, [], fin, false⟩) := by
  have hdec : (encodeRecords (r :: rs)).foldl decodeByte ⟨[], []⟩ = ⟨[], r :: rs⟩ := by
    simpa using foldl_decodeByte_encode (r :: rs) [] h
  unfold DecoderDeserializer.next
  simp [jsonDecoderImpl, JsonDecoderState.decode, JsonDecoderState.flush,
    JsonDecoder.can_flush_early, hdec, List.drop_length]

/-- One `next` call on a finalized deserializer with an empty buffer and
no pending records: the terminal state is entered. -/
theorem next_empty_finalized (dec : JsonDecoderState) (hdec : dec.pending = []) :
    DecoderDeserializer.next jsonDecoderImpl ⟨dec, [], true, false⟩
      = (.inputExhausted, ⟨dec, [], true, true⟩) := by
  unfold DecoderDeserializer.next
  simp [jsonDecoderImpl, JsonDecoderState.decode, JsonDecoderState.flush, hdec,
    JsonDecoder.can_flush_early]

theorem next_exhausted {σ : Type} (impl : DecoderImpl σ) (d : DecoderDeserializer σ)
    (h : d.exhausted = true) :
    DecoderDeserializer.next impl d = (.inputExhausted, d) := by
  unfold DecoderDeserializer.next
  rw [if_pos h]

/-- The output state of any `next` call that returns `InputExhausted` is
itself in the terminal state. -/
theorem next_inputExhausted_state {σ : Type} (impl : DecoderImpl σ)
    (d d' : DecoderDeserializer σ)
    (h : DecoderDeserializer.next impl d = (.inputExhausted, d')) :
    d'.exhausted = true := by
  unfold DecoderDeserializer.next at h
  by_cases hex : d.exhausted = true
  · rw [if_pos hex] at h
    injection h with h1 h2
    rw [← h2]
    exact hex
  · rw [if_neg hex] at h
    by_cases hcond : (impl.canFlushEarly
        || (d.buffer.drop (impl.decode d.decoder d.buffer).1).isEmpty || d.finalized) = true
    · rw [if_pos hcond] at h
      rcases hfl : impl.flush (impl.decode d.decoder d.buffer).2 with ⟨rows, s₂⟩
      rw [hfl] at h
      rcases rows with _ | rows
      · dsimp only at h
        by_cases hfin : d.finalized = true
        · rw [if_pos hfin] at h
          injection h with h1 h2
          rw [← h2]
        · rw [if_neg hfin] at h
          cases h
      · cases h
    · rw [if_neg hcond] at h
      cases h

theorem iterNext_exhausted {σ : Type} (impl : DecoderImpl σ) :
    ∀ k (d : DecoderDeserializer σ), d.exhausted = true →
      (iterNext impl k d).1 = .inputExhausted := by
  intro k
  induction k with
  | zero =>
    intro d h
    show (DecoderDeserializer.next impl d).1 = _
    rw [next_exhausted impl d h]
  | succ k ih =>
    intro d h
    show (iterNext impl k (DecoderDeserializer.next impl d).2).1 = _
    rw [next_exhausted impl d h]
    exact ih d h

/-- A `next` call on a non-finalized, non-terminal state never returns
`InputExhausted`. -/
theorem next_not_exhausted_of_not_finalized {σ : Type} (impl : DecoderImpl σ)
    (d : DecoderDeserializer σ) (hex : d.exhausted = false)
    (hfin : d.finalized = false) :
    (DecoderDeserializer.next impl d).1 ≠ .inputExhausted := by
  unfold DecoderDeserializer.next
  rw [if_neg (by rw [hex]; exact Bool.false_ne_true)]
  by_cases hcond : (impl.canFlushEarly
      || (d.buffer.drop (impl.decode d.decoder d.buffer).1).isEmpty
      || d.finalized) = true
  · rw [if_pos hcond]
    rcases hfl : impl.flush (impl.decode d.decoder d.buffer).2 with ⟨rows, s₂⟩
    rcases rows with _ | rows
    · dsimp only
      rw [hfin]
      simp
    · simp
  · rw [if_neg hcond]
    simp

/-- A `next` call emits a batch only when the decoder could make no more
progress on the buffered bytes or `finish` has been signalled, provided
the decoder does not declare the early-flush capability. -/
theorem next_batch_cond {σ : Type} (impl : DecoderImpl σ)
    (himpl : impl.canFlushEarly = false) (d : DecoderDeserializer σ)
    (rows : List (List Byte)) (d' : DecoderDeserializer σ)
    (h : DecoderDeserializer.next impl d = (.recordBatch rows, d')) :
    (d.buffer.drop (impl.decode d.decoder d.buffer).1).isEmpty = true
      ∨ d.finalized = true := by
  unfold DecoderDeserializer.next at h
  by_cases hex : d.exhausted = true
  · rw [if_pos hex] at h
    injection h with h1 h2
    cases h1
  · rw [if_neg hex] at h
    by_cases hcond : (impl.canFlushEarly
        || (d.buffer.drop (impl.decode d.decoder d.buffer).1).isEmpty
        || d.finalized) = true
    · rw [himpl] at hcond
      simpa using hcond
    · rw [if_neg hcond] at h
      injection h with h1 h2
      cases h1

/-- Draining a finalized deserializer whose buffer holds the encoding of
a valid record list yields exactly those records. -/
theorem drainRows_finalized_encode (recs : List (List Byte))
    (hrecs : ∀ r ∈ recs, newline ∉ r) :
    ∀ k, drainRows jsonDecoderImpl (k + 2)
        ⟨⟨[], []⟩, encodeRecords recs, true, false⟩ = some recs := by
  intro k
  cases recs with
  | nil =>
    have hnext := next_empty_finalized ⟨[], []⟩ rfl
    show drainRows jsonDecoderImpl (k + 1 + 1)
        ⟨⟨[], []⟩, [], true, false⟩ = some []
    simp [drainRows, hnext]
  | cons r rs =>
    have hnext := next_encode_cons r rs true hrecs
    have hnext2 := next_empty_finalized ⟨[], []⟩ rfl
    show drainRows jsonDecoderImpl (k + 1 + 1) _ = _
    simp [drainRows, hnext, hnext2]

/-- Invariant of all reachable deserializer states: the terminal state is
only entered after `finish`. -/
theorem reachable_exhausted_finalized :
    ∀ {d : DecoderDeserializer JsonDecoderState}, ReachableDeser d →
      d.exhausted = true → d.finalized = true := by
  intro d h
  induction h with
  | init => intro h; cases h
  | digest msg _ ih => exact ih
  | finish _ _ => intro _; rfl
  | next hr ih =>
    rename_i d0
    intro hex
    by_cases hex0 : d0.exhausted = true
    · rw [next_exhausted jsonDecoderImpl d0 hex0] at hex ⊢
      exact ih hex0
    · revert hex
      unfold DecoderDeserializer.next
      rw [if_neg hex0]
      by_cases hcond : (jsonDecoderImpl.canFlushEarly
          || (d0.buffer.drop (jsonDecoderImpl.decode d0.decoder d0.buffer).1).isEmpty
          || d0.finalized) = true
      · rw [if_pos hcond]
        rcases hfl : jsonDecoderImpl.flush (jsonDecoderImpl.decode d0.decoder d0.buffer).2
          with ⟨rows, s₂⟩
        rcases rows with _ | rows
        · dsimp only
          by_cases hfin : d0.finalized = true
          · rw [if_pos hfin]
            intro _
            rfl
          · rw [if_neg hfin]
            intro hcontra
            cases hcontra
        · intro hcontra
          cases hcontra
      · rw [if_neg hcond]
        intro hcontra
        cases hcontra

/-! ## Behaviour of the sampling loop -/

/-- With a budget strictly larger than the total record count, the loop
samples every record of every object and never breaks. -/
theorem inferLoop_full (objs : List (List Record)) :
    ∀ budget, totalRecords objs < budget →
      inferLoop budget (objs.map Except.ok)
        = .ok (objs.map (fun rs => (inferObjectSchema rs, rs)),
               budget - totalRecords objs) := by
  induction objs with
  | nil =>
    intro budget _
    simp [totalRecords, inferLoop]
  | cons rs objs ih =>
    intro budget h
    have htot : totalRecords (rs :: objs) = rs.length + totalRecords objs := by
      simp [totalRecords]
    rw [htot] at h
    have htake : rs.take budget = rs :=
      List.take_of_length_le (by omega)
    have hrem : ¬ (budget - rs.length = 0) := by omega
    have hlt : totalRecords objs < budget - rs.length := by omega
    simp only [List.map_cons, inferLoop, htake]
    rw [if_neg hrem, ih (budget - rs.length) hlt]
    rw [htot, Nat.sub_sub]

/-- Once the loop has broken with the budget exhausted inside a non-empty
prefix, appending further objects does not change its result at all: no
later object is opened or sampled. -/
theorem inferLoop_stops (pre : List FetchResult) :
    ∀ budget rest tr, pre ≠ [] → inferLoop budget pre = .ok (tr, 0) →
      inferLoop budget (pre ++ rest) = inferLoop budget pre := by
  induction pre with
  | nil => intro _ _ _ hne _; exact absurd rfl hne
  | cons o pre ih =>
    intro budget rest tr _ hrun
    rw [List.cons_append]
    cases o with
    | error e => simp [inferLoop] at hrun
    | ok records =>
      simp only [inferLoop] at hrun ⊢
      by_cases hrem : budget - (records.take budget).length = 0
      · rw [if_pos hrem] at hrun ⊢
        rw [if_pos hrem]
      · rw [if_neg hrem] at hrun ⊢
        rw [if_neg hrem]
        cases hrec : inferLoop (budget - (records.take budget).length) pre with
        | error e => rw [hrec] at hrun; cases hrun
        | ok p =>
          rw [hrec] at hrun
          obtain ⟨tr2, b2⟩ := p
          injection hrun with hrun
          injection hrun with hrun1 hrun2
          subst hrun2
          have hpre : pre ≠ [] := by
            intro hcontra
            subst hcontra
            simp only [inferLoop] at hrec
            injection hrec with hrec
            injection hrec with hrec1 hrec2
            exact hrem hrec2
          rw [ih (budget - (records.take budget).length) rest tr2 hpre hrec, hrec]

/-- Running the loop over `pre ++ more` when `pre` completes without
exhausting the budget continues into `more` with the leftover budget. -/
theorem inferLoop_append (pre : List FetchResult) :
    ∀ budget more tr b, inferLoop budget pre = .ok (tr, b) → b ≠ 0 →
      inferLoop budget (pre ++ more)
        = (inferLoop b more).map (fun p => (tr ++ p.1, p.2)) := by
  induction pre with
  | nil =>
    intro budget more tr b hrun _
    simp only [inferLoop] at hrun
    injection hrun with hrun
    injection hrun with hrun1 hrun2
    subst hrun2
    rw [List.nil_append]
    cases h : inferLoop budget more with
    | ok p => simp [Except.map, ← hrun1]
    | error e => simp [Except.map]
  | cons o pre ih =>
    intro budget more tr b hrun hb
    rw [List.cons_append]
    cases o with
    | error e => simp [inferLoop] at hrun
    | ok records =>
      simp only [inferLoop] at hrun ⊢
      by_cases hrem : budget - (records.take budget).length = 0
      · rw [if_pos hrem] at hrun
        injection hrun with hrun
        injection hrun with hrun1 hrun2
        exact absurd (hrun2.symm.trans hrem) hb
      · rw [if_neg hrem] at hrun ⊢
        cases hrec : inferLoop (budget - (records.take budget).length) pre with
        | error e => rw [hrec] at hrun; cases hrun
        | ok p =>
          rw [hrec] at hrun
          obtain ⟨tr2, b2⟩ := p
          injection hrun with hrun
          injection hrun with hrun1 hrun2
          rw [hrun2] at hrec
          rw [ih (budget - (records.take budget).length) more tr2 b hrec hb]
          cases h : inferLoop b more with
          | ok p2 => simp [Except.map, ← hrun1]
          | error e2 => simp [Except.map]

/-- With a large enough budget, `infer_schema` reduces to merging the
per-object schemas. -/
theorem infer_schema_map_ok_full (opts : JsonOptionsModel)
    (objs : List (List Record)) (hbudget : totalRecords objs < opts.budget) :
    JsonFormat.infer_schema opts (objs.map Except.ok)
      = (match Schema.try_merge (objs.map inferObjectSchema) with
         | .ok s => .ok s
         | .error _ => .error .schemaConflict) := by
  unfold JsonFormat.infer_schema
  rw [inferLoop_full objs opts.budget hbudget]
  dsimp only
  have hmap : (objs.map (fun rs => (inferObjectSchema rs, rs))).map Prod.fst
      = objs.map inferObjectSchema := by
    rw [List.map_map]
    rfl
  rw [hmap]

/-! ## The claims -/

/-- C1: for every byte sequence encoding a list of valid line-delimited
records and every way of splitting it into chunks, digesting the chunks,
calling `finish` and draining with `next()` yields exactly the records,
equal to what digesting the whole sequence as one chunk yields
(chunk-boundary invariance; no record dropped or duplicated). -/
theorem json_deserializer_chunk_invariance (chunks : List (List Byte))
    (recs : List (List Byte)) (hrecs : ∀ r ∈ recs, newline ∉ r)
    (hchunks : chunks.flatten = encodeRecords recs) :
    ∀ fuel, 2 ≤ fuel →
      drainRows jsonDecoderImpl fuel
          ((digestAll chunks initialDeserializer).finish) = some recs ∧
      drainRows jsonDecoderImpl fuel
          ((initialDeserializer.digest (encodeRecords recs)).finish) = some recs := by
  intro fuel hfuel
  obtain ⟨k, rfl⟩ : ∃ k, fuel = k + 2 := ⟨fuel - 2, by omega⟩
  have hstate : (digestAll chunks initialDeserializer).finish
      = ⟨⟨[], []⟩, encodeRecords recs, true, false⟩ := by
    rw [digestAll_buffer]
    simp [initialDeserializer, DecoderDeserializer.finish, hchunks]
  have hstate2 : (initialDeserializer.digest (encodeRecords recs)).finish
      = ⟨⟨[], []⟩, encodeRecords recs, true, false⟩ := by
    simp [initialDeserializer, DecoderDeserializer.digest, DecoderDeserializer.finish]
  rw [hstate, hstate2]
  exact ⟨drainRows_finalized_encode recs hrecs k, drainRows_finalized_encode recs hrecs k⟩

theorem json_deserializer_chunk_invariance_witness :
    drainRows jsonDecoderImpl 2
        ((digestAll [[65], [10, 66], [10]] initialDeserializer).finish)
      = some [[65], [66]] ∧
    drainRows jsonDecoderImpl 2
        ((initialDeserializer.digest (encodeRecords [[65], [66]])).finish)
      = some [[65], [66]] :=
  json_deserializer_chunk_invariance [[65], [10, 66], [10]] [[65], [66]]
    (by decide) (by decide) 2 (by decide)

/-- C2: the record-sampling budget is one counter shared across all
objects: once it reaches zero inside a non-empty prefix of the object
list (even in the middle of an object), appending any further objects
changes nothing — no record of any subsequent object is sampled and the
inferred schema is unchanged. -/
theorem infer_schema_budget_shared_globally (opts : JsonOptionsModel)
    (pre rest : List FetchResult) (tr : List (Schema × List Record))
    (hpre : pre ≠ []) (hrun : inferLoop opts.budget pre = .ok (tr, 0)) :
    inferLoop opts.budget (pre ++ rest) = .ok (tr, 0) ∧
    JsonFormat.infer_schema opts (pre ++ rest) = JsonFormat.infer_schema opts pre := by
  have h1 := inferLoop_stops pre opts.budget rest tr hpre hrun
  refine ⟨h1.trans hrun, ?_⟩
  unfold JsonFormat.infer_schema
  rw [h1]

theorem infer_schema_budget_shared_globally_witness :
    inferLoop (JsonOptionsModel.budget ⟨some 1, .uncompressed⟩)
        ([.ok [[("a", JsonValue.int 1)], [("b", JsonValue.int 2)]]]
          ++ [.ok [[("c", JsonValue.int 3)]]])
      = .ok ([(⟨[⟨"a", DataType.int64, true⟩]⟩, [[("a", JsonValue.int 1)]])], 0) ∧
    JsonFormat.infer_schema ⟨some 1, .uncompressed⟩
        ([.ok [[("a", JsonValue.int 1)], [("b", JsonValue.int 2)]]]
          ++ [.ok [[("c", JsonValue.int 3)]]])
      = JsonFormat.infer_schema ⟨some 1, .uncompressed⟩
        [.ok [[("a", JsonValue.int 1)], [("b", JsonValue.int 2)]]] :=
  infer_schema_budget_shared_globally ⟨some 1, .uncompressed⟩
    [.ok [[("a", JsonValue.int 1)], [("b", JsonValue.int 2)]]]
    [.ok [[("c", JsonValue.int 3)]]]
    [(⟨[⟨"a", DataType.int64, true⟩]⟩, [[("a", JsonValue.int 1)]])]
    (by decide) (by decide)

/-- C3 counterexample: `infer_schema` is not order-invariant as literal
schema equality — permuting the objects permutes the merged field order. -/
theorem infer_schema_order_dependence :
    JsonFormat.infer_schema ⟨none, .uncompressed⟩
        [.ok [[("a", JsonValue.int 1)]], .ok [[("b", JsonValue.int 2)]]]
      ≠ JsonFormat.infer_schema ⟨none, .uncompressed⟩
        [.ok [[("b", JsonValue.int 2)]], .ok [[("a", JsonValue.int 1)]]] := by
  decide

/-- C3 (amended): permuting the per-object schemas (or, with a budget
exceeding the total record count, the objects themselves) preserves the
merge outcome and the by-name field lookup of the merged schema — the
merge is commutative and associative up to field order, field order being
first appearance. -/
theorem infer_schema_perm_same_fields :
    (∀ (l₁ l₂ : List Schema), l₁.Perm l₂ →
       ∀ n, mergedLookup l₁ n = mergedLookup l₂ n) ∧
    (∀ (l₁ l₂ : List Schema) (s₁ s₂ : Schema),
       Schema.try_merge l₁ = .ok s₁ → Schema.try_merge l₂ = .ok s₂ →
       ∀ n, mergedLookup (l₁ ++ l₂) n = mergedLookup [s₁, s₂] n) ∧
    (∀ (opts : JsonOptionsModel) (objs₁ objs₂ : List (List Record)),
       objs₁.Perm objs₂ → totalRecords objs₁ < opts.budget →
       ∀ n, inferredLookup opts (objs₁.map Except.ok) n
          = inferredLookup opts (objs₂.map Except.ok) n) := by
  refine ⟨fun l₁ l₂ h n => mergedLookup_perm h n,
          fun l₁ l₂ s₁ s₂ h1 h2 n => mergedLookup_append h1 h2 n, ?_⟩
  intro opts objs₁ objs₂ hperm hbudget n
  have htot : totalRecords objs₂ = totalRecords objs₁ := by
    unfold totalRecords
    exact ((hperm.map List.length).sum_eq).symm
  have hml := mergedLookup_perm (hperm.map inferObjectSchema) n
  unfold inferredLookup
  rw [infer_schema_map_ok_full opts objs₁ hbudget,
      infer_schema_map_ok_full opts objs₂ (htot ▸ hbudget)]
  unfold mergedLookup at hml
  cases ha : Schema.try_merge (objs₁.map inferObjectSchema) with
  | ok s₁ =>
    cases hb : Schema.try_merge (objs₂.map inferObjectSchema) with
    | ok s₂ =>
      rw [ha, hb] at hml
      simp only [Except.map] at hml
      injection hml with hml
      dsimp only
      simp [Except.map, hml]
    | error e₂ =>
      rw [ha, hb] at hml
      simp [Except.map] at hml
  | error e₁ =>
    cases hb : Schema.try_merge (objs₂.map inferObjectSchema) with
    | ok s₂ =>
      rw [ha, hb] at hml
      simp [Except.map] at hml
    | error e₂ =>
      rfl

theorem infer_schema_perm_same_fields_witness :
    inferredLookup ⟨none, .uncompressed⟩
        [Except.ok [[("a", JsonValue.int 1)]], Except.ok [[("b", JsonValue.int 2)]]] "a"
      = inferredLookup ⟨none, .uncompressed⟩
        [Except.ok [[("b", JsonValue.int 2)]], Except.ok [[("a", JsonValue.int 1)]]] "a" :=
  infer_schema_perm_same_fields.2.2 ⟨none, .uncompressed⟩
    [[[("a", JsonValue.int 1)]], [[("b", JsonValue.int 2)]]]
    [[[("b", JsonValue.int 2)]], [[("a", JsonValue.int 1)]]]
    (List.Perm.swap _ _ _) (by decide) "a"

/-- C4: `next()` never returns `InputExhausted` on a reachable state
before `finish()` has been called, and once a `next()` call has returned
`InputExhausted`, every subsequent call returns it again (the terminal
state is idempotent). -/
theorem json_deserializer_exhausted_protocol :
    (∀ d : DecoderDeserializer JsonDecoderState, ReachableDeser d →
       d.finalized = false →
       (DecoderDeserializer.next jsonDecoderImpl d).1 ≠ .inputExhausted) ∧
    (∀ (d d' : DecoderDeserializer JsonDecoderState),
       DecoderDeserializer.next jsonDecoderImpl d = (.inputExhausted, d') →
       ∀ k, (iterNext jsonDecoderImpl k d').1 = .inputExhausted) := by
  constructor
  · intro d hr hfin
    have hex : d.exhausted = false := by
      cases hexv : d.exhausted with
      | false => rfl
      | true =>
        rw [reachable_exhausted_finalized hr hexv] at hfin
        cases hfin
    exact next_not_exhausted_of_not_finalized jsonDecoderImpl d hex hfin
  · intro d d' h k
    exact iterNext_exhausted jsonDecoderImpl k d' (next_inputExhausted_state _ _ _ h)

theorem json_deserializer_exhausted_protocol_witness :
    (DecoderDeserializer.next jsonDecoderImpl initialDeserializer).1
      ≠ DeserializerOutput.inputExhausted ∧
    (iterNext jsonDecoderImpl 3
        ⟨⟨[], []⟩, [], true, true⟩).1 = DeserializerOutput.inputExhausted :=
  ⟨json_deserializer_exhausted_protocol.1 initialDeserializer ReachableDeser.init rfl,
   json_deserializer_exhausted_protocol.2 initialDeserializer.finish
     ⟨⟨[], []⟩, [], true, true⟩ (by decide) 3⟩

/-- C5: a field name occurring with two types that cannot be unified
(both non-null and distinct) makes `Schema::try_merge` fail with the
schema-conflict error instead of returning a schema; when the merge
succeeds, the merged schema has exactly one field definition per occurring
name. -/
theorem json_schema_merge_conflict_or_unique :
    (∀ (l : List Schema) (f₁ f₂ : Field),
       f₁ ∈ flatFields l → f₂ ∈ flatFields l → f₁.name = f₂.name →
       f₁.dataType ≠ DataType.null → f₂.dataType ≠ DataType.null →
       f₁.dataType ≠ f₂.dataType →
       Schema.try_merge l = .error .conflict) ∧
    (∀ (l : List Schema) (s : Schema), Schema.try_merge l = .ok s →
       ∀ f ∈ flatFields l,
         s.fields.countP (fun g => g.name == f.name) = 1) := by
  constructor
  · intro l f₁ f₂ h₁ h₂ hn ht₁ ht₂ hne
    cases hm : Schema.try_merge l with
    | error e => cases e; rfl
    | ok s =>
      exfalso
      obtain ⟨g₁, hg₁, hty₁⟩ := merged_type_bound hm h₁
      obtain ⟨g₂, hg₂, hty₂⟩ := merged_type_bound hm h₂
      rw [hn] at hg₁
      rw [hg₁] at hg₂
      injection hg₂ with hg₂
      subst hg₂
      rcases hty₁ with h | h
      · exact ht₁ h
      · rcases hty₂ with h2 | h2
        · exact ht₂ h2
        · exact hne (h.trans h2.symm)
  · intro l s hm f hf
    obtain ⟨g, hg⟩ := findName_merged_isSome hm hf
    have hg' : s.fields.find? (fun x => x.name == f.name) = some g := hg
    have hnd := (try_merge_char_ok hm).2
    have hmemg : g ∈ s.fields := List.mem_of_find?_eq_some hg'
    have hpredg := List.find?_some hg'
    have hpos : 0 < s.fields.countP (fun g => g.name == f.name) :=
      List.countP_pos_iff.mpr ⟨g, hmemg, hpredg⟩
    have hle : s.fields.countP (fun g => g.name == f.name) ≤ 1 := by
      have h1 : s.fields.countP (fun g => g.name == f.name)
          = (s.fields.map Field.name).count f.name := by
        have h2 := List.countP_map (fun m => m == f.name) Field.name s.fields
        exact h2.symm
      rw [h1]
      exact List.nodup_iff_count_le_one.mp hnd f.name
    omega

theorem json_schema_merge_conflict_or_unique_witness :
    Schema.try_merge [⟨[⟨"a", DataType.int64, false⟩]⟩, ⟨[⟨"a", DataType.utf8, false⟩]⟩]
      = .error .conflict ∧
    (⟨[⟨"a", DataType.int64, true⟩, ⟨"b", DataType.utf8, true⟩]⟩ : Schema).fields.countP
        (fun g => g.name == "a") = 1 :=
  ⟨json_schema_merge_conflict_or_unique.1
      [⟨[⟨"a", DataType.int64, false⟩]⟩, ⟨[⟨"a", DataType.utf8, false⟩]⟩]
      ⟨"a", DataType.int64, false⟩ ⟨"a", DataType.utf8, false⟩
      (by decide) (by decide) rfl (by decide) (by decide) (by decide),
   json_schema_merge_conflict_or_unique.2
      [⟨[⟨"a", DataType.int64, false⟩]⟩, ⟨[⟨"a", DataType.null, false⟩, ⟨"b", DataType.utf8, true⟩]⟩]
      ⟨[⟨"a", DataType.int64, true⟩, ⟨"b", DataType.utf8, true⟩]⟩
      (by decide) ⟨"a", DataType.int64, false⟩ (by decide)⟩

/-- C6: a storage failure on any object reached by `infer_schema` makes
the whole inference return that error immediately: no schema, no partial
result from earlier objects, and no later object is sampled (the result
does not depend on what follows the failing object). -/
theorem infer_schema_error_short_circuit :
    (∀ (opts : JsonOptionsModel) (e : IOErrorId) (rest : List FetchResult),
       JsonFormat.infer_schema opts (.error e :: rest) = .error (.objectStore e)) ∧
    (∀ (opts : JsonOptionsModel) (pre : List FetchResult)
       (tr : List (Schema × List Record)) (b : Nat) (e : IOErrorId)
       (rest : List FetchResult),
       inferLoop opts.budget pre = .ok (tr, b) → b ≠ 0 →
       JsonFormat.infer_schema opts (pre ++ .error e :: rest)
         = .error (.objectStore e)) := by
  constructor
  · intro opts e rest
    unfold JsonFormat.infer_schema
    simp [inferLoop]
  · intro opts pre tr b e rest hrun hb
    unfold JsonFormat.infer_schema
    rw [inferLoop_append pre opts.budget (.error e :: rest) tr b hrun hb]
    simp [inferLoop, Except.map]

theorem infer_schema_error_short_circuit_witness :
    JsonFormat.infer_schema ⟨none, .uncompressed⟩
        ([.ok [[("a", JsonValue.int 1)]]] ++ .error 7 :: [.ok [[("b", JsonValue.int 2)]]])
      = .error (.objectStore 7) :=
  infer_schema_error_short_circuit.2 ⟨none, .uncompressed⟩
    [.ok [[("a", JsonValue.int 1)]]]
    [(⟨[⟨"a", DataType.int64, true⟩]⟩, [[("a", JsonValue.int 1)]])] 999 7
    [.ok [[("b", JsonValue.int 2)]]] (by decide) (by decide)

/-- C7: `JsonSerializer::serialize` ignores `is_first_batch_in_file`, and
its output is one self-contained encoded line per row with no header or
footer, so serializing a batch equals concatenating the serializations of
any row-wise split of it. -/
theorem json_serializer_position_independent :
    (∀ (α : Type) (enc : α → List Byte) (batch : List α),
       JsonSerializer.serialize enc batch true
         = JsonSerializer.serialize enc batch false) ∧
    (∀ (α : Type) (enc : α → List Byte) (row : α) (b : Bool),
       JsonSerializer.serialize enc [row] b = enc row ++ [newline]) ∧
    (∀ (α : Type) (enc : α → List Byte) (parts : List (List α)) (b : Bool),
       JsonSerializer.serialize enc parts.flatten b
         = (parts.map (fun part => JsonSerializer.serialize enc part b)).flatten) := by
  refine ⟨fun α enc batch => rfl, fun α enc row b => by simp [JsonSerializer.serialize], ?_⟩
  intro α enc parts b
  induction parts with
  | nil => rfl
  | cons p ps ih =>
    simp only [List.flatten_cons, List.map_cons]
    rw [← ih]
    simp [JsonSerializer.serialize]

/-- C9 (implicit): `infer_stats` always returns `Statistics::new_unknown`
for the table schema — never a known row count or byte size — for every
store and for every object. -/
theorem infer_stats_always_unknown :
    ∀ (Store : Type) (store : Store) (schema : Schema) (object : String),
      JsonFormat.infer_stats store schema object
        = .ok (Statistics.new_unknown schema) ∧
      (Statistics.new_unknown schema).num_rows = Precision.absent ∧
      (Statistics.new_unknown schema).total_byte_size = Precision.absent :=
  fun _ _ _ _ => ⟨rfl, rfl, rfl⟩

/-- C8: `create_writer_physical_plan` rejects every non-`Append` insert
operation with the not-implemented error before building any sink, and
succeeds for `Append` configurations, building the `DataSinkExec` over a
`JsonSink`. -/
theorem create_writer_rejects_non_append :
    (∀ (opts : JsonOptionsModel) (input : ExecutionPlanModel) (conf : FileSinkConfig),
       conf.insert_op ≠ InsertOp.append →
       JsonFormat.create_writer_physical_plan opts input conf = .error .notImplemented) ∧
    (∀ (opts : JsonOptionsModel) (input : ExecutionPlanModel) (conf : FileSinkConfig),
       conf.insert_op = InsertOp.append →
       JsonFormat.create_writer_physical_plan opts input conf
         = .ok (.dataSinkExec input (JsonSink.mk conf ⟨opts.compression⟩))) := by
  constructor
  · intro opts input conf h
    unfold JsonFormat.create_writer_physical_plan
    rw [if_pos h]
  · intro opts input conf h
    unfold JsonFormat.create_writer_physical_plan
    rw [if_neg (by simp [h])]
    rfl

theorem create_writer_rejects_non_append_witness :
    JsonFormat.create_writer_physical_plan ⟨none, .uncompressed⟩ .source ⟨.overwrite⟩
      = .error .notImplemented ∧
    JsonFormat.create_writer_physical_plan ⟨none, .uncompressed⟩ .source ⟨.append⟩
      = .ok (.dataSinkExec .source (JsonSink.mk ⟨.append⟩ ⟨.uncompressed⟩)) :=
  ⟨create_writer_rejects_non_append.1 ⟨none, .uncompressed⟩ .source ⟨.overwrite⟩ (by decide),
   create_writer_rejects_non_append.2 ⟨none, .uncompressed⟩ .source ⟨.append⟩ rfl⟩

/-- C10 (implicit): `JsonDecoder::can_flush_early` is `false`
unconditionally, so the deserializer state machine never flushes the JSON
decoder early — a batch is only emitted when the decoder consumed the
whole buffered input or `finish` has been signalled. -/
theorem json_decoder_no_early_flush :
    JsonDecoder.can_flush_early = false ∧
    (∀ (d : DecoderDeserializer JsonDecoderState) (rows : List (List Byte))
       (d' : DecoderDeserializer JsonDecoderState),
       DecoderDeserializer.next jsonDecoderImpl d = (.recordBatch rows, d') →
       (d.buffer.drop (jsonDecoderImpl.decode d.decoder d.buffer).1).isEmpty = true
         ∨ d.finalized = true) :=
  ⟨rfl, fun d rows d' h => next_batch_cond jsonDecoderImpl rfl d rows d' h⟩

theorem json_decoder_no_early_flush_witness :
    ((([65, 10] : List Byte).drop
        (jsonDecoderImpl.decode (⟨[], []⟩ : JsonDecoderState) [65, 10]).1).isEmpty = true)
    ∨ ((false : Bool) = true) :=
  json_decoder_no_early_flush.2 ⟨⟨[], []⟩, [65, 10], false, false⟩ [[65]]
    ⟨⟨[], []⟩, [], false, false⟩ (by decide)

end JsonFormatSpec
